import Mathlib

/-!
# Verification of the papertrade order engine and quote layer

Shallow embedding of the repository's simulated-trading core:

* `OrderEngine` (`src/services/orderEngine.ts`): `placeOrder`,
  `updatePortfolio`, `getBalance`, `getPositions`, `getOrders`.
* `MarketDataService` (`src/services/marketData.ts`): `formatSymbol`
  (symbol normalization) and the response-processing core of
  `getHistoricalData` (Alpha Vantage variant).

Modelling conventions:

* JavaScript `number` is modelled as `ℚ` (exact arithmetic); `NaN` — which
  arises only in the candle-parsing path, from `parseFloat` of a missing
  field — is modelled by the separate type `JNum` there.
* The JS `Map` of positions is an association list in insertion order:
  `set` replaces in place or appends, `delete` removes the entry, matching
  `Map.set` / `Map.delete` / `Map.values()` iteration order.
* Effects are passed explicitly: `placeOrder` receives the outcome of the
  awaited `marketData.getLatestPrice` call, the generated id and the
  timestamp as parameters; a thrown JS error is the `Except.error` case,
  carrying the error message.
-/

namespace PaperTrade

/-! ## Data model (`orderEngine.ts` interfaces) -/

inductive OrderType where
  | market
  | limit
deriving DecidableEq, Repr

inductive Side where
  | buy
  | sell
deriving DecidableEq, Repr

inductive Status where
  | pending
  | filled
  | cancelled
deriving DecidableEq, Repr

/-- The `Order` interface of `orderEngine.ts`. -/
structure Order where
  id : String
  symbol : String
  type : OrderType
  side : Side
  quantity : ℚ
  price : ℚ
  status : Status
  timestamp : String
deriving DecidableEq, Repr

/-- The `Position` interface of `orderEngine.ts`. -/
structure Position where
  symbol : String
  quantity : ℚ
  averagePrice : ℚ
  currentPrice : ℚ
  pnl : ℚ
  pnlPercent : ℚ
deriving DecidableEq, Repr

/-- The caller-supplied part of an order:
`Omit<Order, 'id' | 'status' | 'timestamp' | 'price'>`. -/
structure OrderIntent where
  symbol : String
  type : OrderType
  side : Side
  quantity : ℚ
deriving DecidableEq, Repr

/-- The `PriceData` interface of `marketData.ts` (quote shape). -/
structure PriceData where
  symbol : String
  price : ℚ
  change : ℚ
  changePercent : ℚ
  lastUpdated : String
deriving DecidableEq, Repr

/-! ## The position map

`private positions: Map<string, Position>` — an insertion-ordered map. -/

/-- `Map.get`: the value at the first (hence, keys being unique, the only)
entry with the given key. -/
def positionsGet (m : List (String × Position)) (k : String) : Option Position :=
  match m with
  | [] => none
  | (k', v) :: rest => if k' = k then some v else positionsGet rest k

/-- `Map.set`: replace the entry in place when the key is present, append
a new entry otherwise. -/
def positionsSet (m : List (String × Position)) (k : String) (v : Position) :
    List (String × Position) :=
  match m with
  | [] => [(k, v)]
  | (k', v') :: rest =>
      if k' = k then (k, v) :: rest else (k', v') :: positionsSet rest k v

/-- `Map.delete`: remove the entry with the given key. -/
def positionsDelete (m : List (String × Position)) (k : String) :
    List (String × Position) :=
  match m with
  | [] => []
  | (k', v') :: rest =>
      if k' = k then rest else (k', v') :: positionsDelete rest k

/-! ## The ledger state -/

/-- The mutable fields of the `OrderEngine` singleton. -/
structure EngineState where
  orders : List Order
  positions : List (String × Position)
  balance : ℚ
deriving DecidableEq, Repr

/-- The seed ledger: balance 1,000,000, no positions, no orders. -/
def initialState : EngineState :=
  { orders := [], positions := [], balance := 1000000 }

/-- `getBalance()`. -/
def getBalance (st : EngineState) : ℚ := st.balance

/-- `getPositions()`: `Array.from(this.positions.values())`, insertion
order. -/
def getPositions (st : EngineState) : List Position := st.positions.map Prod.snd

/-- `getOrders()`. -/
def getOrders (st : EngineState) : List Order := st.orders

/-! ## updatePortfolio -/

/-- `OrderEngine.updatePortfolio(order)`, the ledger application of a
filled order: buy debits `price × quantity` and merges into the position
map with a weighted-average price; sell credits `price × quantity` and
reduces (or, at remaining quantity ≤ 0, deletes) the position. -/
def updatePortfolio (st : EngineState) (order : Order) : EngineState :=
  let cost := order.price * order.quantity
  if order.side = Side.buy then
    match positionsGet st.positions order.symbol with
    | some existing =>
        let totalQty := existing.quantity + order.quantity
        let totalCost := existing.averagePrice * existing.quantity + cost
        { st with
          balance := st.balance - cost,
          positions := positionsSet st.positions order.symbol
            { existing with quantity := totalQty, averagePrice := totalCost / totalQty } }
    | none =>
        { st with
          balance := st.balance - cost,
          positions := positionsSet st.positions order.symbol
            { symbol := order.symbol, quantity := order.quantity,
              averagePrice := order.price, currentPrice := order.price,
              pnl := 0, pnlPercent := 0 } }
  else
    match positionsGet st.positions order.symbol with
    | some existing =>
        let remainingQty := existing.quantity - order.quantity
        if remainingQty ≤ 0 then
          { st with
            balance := st.balance + cost,
            positions := positionsDelete st.positions order.symbol }
        else
          { st with
            balance := st.balance + cost,
            positions := positionsSet st.positions order.symbol
              { existing with quantity := remainingQty } }
    | none => { st with balance := st.balance + cost }

/-! ## placeOrder -/

/-- JS truthiness of `limitPrice || currentPriceData.price`: an absent
(`undefined`) limit price and a limit price of `0` are both falsy, so both
fall back to the quote price. -/
def jsOrElse (x : Option ℚ) (d : ℚ) : ℚ :=
  match x with
  | none => d
  | some v => if v = 0 then d else v

/-- `OrderEngine.placeOrder(order, limitPrice?)`. `quoteResult` is the
outcome of the awaited `marketData.getLatestPrice(order.symbol)` call;
`freshId` and `now` stand for `Math.random().toString(36).substr(2, 9)` and
`new Date().toISOString()`. When the quote call throws, the exception
propagates before any mutation, so the state is returned unchanged. -/
def placeOrder (st : EngineState) (intent : OrderIntent) (limitPrice : Option ℚ)
    (freshId : String) (now : String) (quoteResult : Except String PriceData) :
    Except String Order × EngineState :=
  match quoteResult with
  | .error e => (.error e, st)
  | .ok currentPriceData =>
      let executionPrice :=
        if intent.type = OrderType.market then currentPriceData.price
        else jsOrElse limitPrice currentPriceData.price
      let newOrder : Order :=
        { id := freshId, symbol := intent.symbol, type := intent.type,
          side := intent.side, quantity := intent.quantity,
          price := executionPrice,
          status := if intent.type = OrderType.market then Status.filled else Status.pending,
          timestamp := now }
      let st' := if newOrder.status = Status.filled then updatePortfolio st newOrder else st
      (.ok newOrder, { st' with orders := st'.orders ++ [newOrder] })

/-- A successful quote at a given price (the other `PriceData` fields are
irrelevant to the order engine, which reads only `.price`). -/
def quoteAt (symbol : String) (price : ℚ) : Except String PriceData :=
  .ok { symbol := symbol, price := price, change := 0, changePercent := 0, lastUpdated := "" }

/-! ## Derived ledger notions

The accounting quantities the spec's conservation invariant speaks about,
and the trace semantics of a sequence of filled market orders. -/

/-- The book value of the open positions:
`Σ position.averagePrice × position.quantity`. -/
def poscost (m : List (String × Position)) : ℚ :=
  (m.map fun kv => kv.2.averagePrice * kv.2.quantity).sum

/-- The quantity currently held for a symbol (`0` when no position). -/
def heldQty (st : EngineState) (symbol : String) : ℚ :=
  match positionsGet st.positions symbol with
  | some p => p.quantity
  | none => 0

/-- One market order of a trace: side, symbol, executed quote price,
quantity. -/
structure MarketOp where
  symbol : String
  side : Side
  quantity : ℚ
  price : ℚ
deriving DecidableEq, Repr

/-- Run one market order through `placeOrder` with a successful quote at
the op's price (market orders fill synchronously). -/
def applyMarket (st : EngineState) (op : MarketOp) : EngineState :=
  (placeOrder st ⟨op.symbol, OrderType.market, op.side, op.quantity⟩ none "" ""
    (quoteAt op.symbol op.price)).2

/-- Run a trace of filled market orders. -/
def runOps (st : EngineState) (ops : List MarketOp) : EngineState :=
  ops.foldl applyMarket st

/-- Total cash outflow of a trace: `Σ price × quantity` over the buys. -/
def cashOut (ops : List MarketOp) : ℚ :=
  (ops.map fun op => if op.side = Side.buy then op.price * op.quantity else 0).sum

/-- Total cash inflow of a trace: `Σ price × quantity` over the sells. -/
def cashIn (ops : List MarketOp) : ℚ :=
  (ops.map fun op => if op.side = Side.sell then op.price * op.quantity else 0).sum

/-- The trace precondition of the conservation claim: every quantity is
positive and no sell exceeds the quantity held for its symbol at that
point. -/
def sellsOk (st : EngineState) : List MarketOp → Prop
  | [] => True
  | op :: rest =>
      0 < op.quantity ∧ (op.side = Side.sell → op.quantity ≤ heldQty st op.symbol) ∧
        sellsOk (applyMarket st op) rest

/-- The realized profit and loss of a trace: each sell realizes
`(price - averagePrice) × quantity` against the position it closes
(a sell with no open position realizes its full proceeds). -/
def realizedOf (st : EngineState) : List MarketOp → ℚ
  | [] => 0
  | op :: rest =>
      (if op.side = Side.sell then
        match positionsGet st.positions op.symbol with
        | some p => (op.price - p.averagePrice) * op.quantity
        | none => op.price * op.quantity
      else 0) + realizedOf (applyMarket st op) rest

/-- Every position in the map has positive quantity. -/
def posQtyPos (st : EngineState) : Prop :=
  ∀ kv ∈ st.positions, 0 < kv.2.quantity

/-- The ledger states reachable from the seed state by `placeOrder` calls
whose intents carry a positive quantity (the data model's orders have
positive integer quantity); the quote outcome, the limit price, the id and
the timestamp are arbitrary. -/
inductive Reachable : EngineState → Prop where
  | init : Reachable initialState
  | step {st : EngineState} (intent : OrderIntent) (limitPrice : Option ℚ)
      (freshId now : String) (quoteResult : Except String PriceData)
      (hq : 0 < intent.quantity) (h : Reachable st) :
      Reachable (placeOrder st intent limitPrice freshId now quoteResult).2

/-! ## Position-map lemmas -/

theorem positionsGet_set_self (m : List (String × Position)) (k : String) (v : Position) :
    positionsGet (positionsSet m k v) k = some v := by
  induction m with
  | nil => simp [positionsSet, positionsGet]
  | cons kv rest ih =>
      by_cases h : kv.1 = k
      · simp [positionsSet, positionsGet, h]
      · simp [positionsSet, positionsGet, h, ih]

theorem positionsGet_set_other (m : List (String × Position)) (k j : String) (v : Position)
    (h : k ≠ j) : positionsGet (positionsSet m k v) j = positionsGet m j := by
  induction m with
  | nil => simp [positionsSet, positionsGet, h]
  | cons kv rest ih =>
      by_cases hk : kv.1 = k
      · subst hk
        simp [positionsSet, positionsGet, h]
      · simp [positionsSet, positionsGet, hk, ih]

theorem positionsGet_delete_other (m : List (String × Position)) (k j : String)
    (h : k ≠ j) : positionsGet (positionsDelete m k) j = positionsGet m j := by
  induction m with
  | nil => simp [positionsDelete, positionsGet]
  | cons kv rest ih =>
      by_cases hk : kv.1 = k
      · subst hk
        simp [positionsDelete, positionsGet, h]
      · simp [positionsDelete, positionsGet, hk, ih]

theorem mem_positionsSet (m : List (String × Position)) (k : String) (v : Position)
    (kv : String × Position) (h : kv ∈ positionsSet m k v) : kv ∈ m ∨ kv = (k, v) := by
  induction m with
  | nil =>
      simp [positionsSet] at h
      exact Or.inr h
  | cons kv' rest ih =>
      by_cases hk : kv'.1 = k
      · simp only [positionsSet, if_pos hk, List.mem_cons] at h
        rcases h with h | h
        · exact Or.inr h
        · exact Or.inl (List.mem_cons_of_mem _ h)
      · simp only [positionsSet, if_neg hk, List.mem_cons] at h
        rcases h with h | h
        · exact Or.inl (h ▸ List.mem_cons_self _ _)
        · rcases ih h with h' | h'
          · exact Or.inl (List.mem_cons_of_mem _ h')
          · exact Or.inr h'

theorem mem_positionsDelete (m : List (String × Position)) (k : String)
    (kv : String × Position) (h : kv ∈ positionsDelete m k) : kv ∈ m := by
  induction m with
  | nil => simp [positionsDelete] at h
  | cons kv' rest ih =>
      by_cases hk : kv'.1 = k
      · simp only [positionsDelete, if_pos hk] at h
        exact List.mem_cons_of_mem _ h
      · simp only [positionsDelete, if_neg hk, List.mem_cons] at h
        rcases h with h | h
        · exact h ▸ List.mem_cons_self _ _
        · exact List.mem_cons_of_mem _ (ih h)

theorem positionsGet_mem (m : List (String × Position)) (k : String) (v : Position)
    (h : positionsGet m k = some v) : (k, v) ∈ m := by
  induction m with
  | nil => simp [positionsGet] at h
  | cons kv rest ih =>
      obtain ⟨k', v'⟩ := kv
      by_cases hk : k' = k
      · subst hk
        simp [positionsGet] at h
        subst h
        exact List.mem_cons_self _ _
      · simp only [positionsGet, if_neg hk] at h
        exact List.mem_cons_of_mem _ (ih h)

theorem poscost_set_some (m : List (String × Position)) (k : String) (v old : Position)
    (h : positionsGet m k = some old) :
    poscost (positionsSet m k v) =
      poscost m - old.averagePrice * old.quantity + v.averagePrice * v.quantity := by
  induction m with
  | nil => simp [positionsGet] at h
  | cons kv rest ih =>
      by_cases hk : kv.1 = k
      · simp only [positionsGet, if_pos hk] at h
        cases h
        simp only [positionsSet, if_pos hk, poscost, List.map_cons, List.sum_cons]
        ring
      · simp only [positionsGet, if_neg hk] at h
        simp only [positionsSet, if_neg hk, poscost, List.map_cons, List.sum_cons]
        have := ih h
        simp only [poscost] at this
        rw [this]
        ring

theorem poscost_set_none (m : List (String × Position)) (k : String) (v : Position)
    (h : positionsGet m k = none) :
    poscost (positionsSet m k v) = poscost m + v.averagePrice * v.quantity := by
  induction m with
  | nil => simp [positionsSet, poscost]
  | cons kv rest ih =>
      by_cases hk : kv.1 = k
      · simp [positionsGet, hk] at h
      · simp only [positionsGet, if_neg hk] at h
        simp only [positionsSet, if_neg hk, poscost, List.map_cons, List.sum_cons]
        have := ih h
        simp only [poscost] at this
        rw [this]
        ring

theorem poscost_delete_some (m : List (String × Position)) (k : String) (old : Position)
    (h : positionsGet m k = some old) :
    poscost (positionsDelete m k) = poscost m - old.averagePrice * old.quantity := by
  induction m with
  | nil => simp [positionsGet] at h
  | cons kv rest ih =>
      by_cases hk : kv.1 = k
      · simp only [positionsGet, if_pos hk] at h
        cases h
        simp only [positionsDelete, if_pos hk, poscost, List.map_cons, List.sum_cons]
        ring
      · simp only [positionsGet, if_neg hk] at h
        simp only [positionsDelete, if_neg hk, poscost, List.map_cons, List.sum_cons]
        have := ih h
        simp only [poscost] at this
        rw [this]
        ring

/-! ## Single-step ledger lemmas -/

/-- The `Order` a market op turns into inside `placeOrder` (market orders
execute at the quote price and fill synchronously). -/
def mkMarketOrder (op : MarketOp) : Order :=
  { id := "", symbol := op.symbol, type := OrderType.market, side := op.side,
    quantity := op.quantity, price := op.price, status := Status.filled, timestamp := "" }

theorem applyMarket_eq (st : EngineState) (op : MarketOp) :
    applyMarket st op =
      { updatePortfolio st (mkMarketOrder op) with
        orders := (updatePortfolio st (mkMarketOrder op)).orders ++ [mkMarketOrder op] } := by
  rfl

theorem applyMarket_positions (st : EngineState) (op : MarketOp) :
    (applyMarket st op).positions = (updatePortfolio st (mkMarketOrder op)).positions := by
  rw [applyMarket_eq]

theorem updatePortfolio_buy_balance (st : EngineState) (order : Order)
    (h : order.side = Side.buy) :
    (updatePortfolio st order).balance = st.balance - order.price * order.quantity := by
  rcases hget : positionsGet st.positions order.symbol with _ | ex <;>
    simp [updatePortfolio, h, hget]

theorem updatePortfolio_sell_balance (st : EngineState) (order : Order)
    (h : order.side = Side.sell) :
    (updatePortfolio st order).balance = st.balance + order.price * order.quantity := by
  rcases hget : positionsGet st.positions order.symbol with _ | ex <;>
    simp only [updatePortfolio, h, hget, reduceCtorEq, if_false] <;> split <;> rfl

theorem updatePortfolio_buy_poscost (st : EngineState) (order : Order)
    (h : order.side = Side.buy) (hpos : posQtyPos st) (hq : 0 < order.quantity) :
    poscost (updatePortfolio st order).positions =
      poscost st.positions + order.price * order.quantity := by
  rcases hget : positionsGet st.positions order.symbol with _ | ex
  · simp only [updatePortfolio, h, hget, if_true]
    rw [poscost_set_none st.positions _ _ hget]
  · have hexq : 0 < ex.quantity := hpos _ (positionsGet_mem _ _ _ hget)
    have htot : ex.quantity + order.quantity ≠ 0 := by positivity
    simp only [updatePortfolio, h, hget, if_true]
    rw [poscost_set_some st.positions _ _ _ hget]
    simp only
    rw [div_mul_cancel₀ _ htot]
    ring

theorem updatePortfolio_sell_poscost (st : EngineState) (order : Order) (ex : Position)
    (h : order.side = Side.sell) (hget : positionsGet st.positions order.symbol = some ex)
    (hle : order.quantity ≤ ex.quantity) :
    poscost (updatePortfolio st order).positions =
      poscost st.positions - ex.averagePrice * order.quantity := by
  simp only [updatePortfolio, h, hget, reduceCtorEq, if_false]
  by_cases hrem : ex.quantity - order.quantity ≤ 0
  · have hq : order.quantity = ex.quantity := le_antisymm hle (by linarith)
    simp only [hrem, if_true]
    rw [poscost_delete_some st.positions _ _ hget, hq]
  · simp only [hrem, if_false]
    rw [poscost_set_some st.positions _ _ _ hget]
    simp only
    ring

theorem updatePortfolio_posQtyPos (st : EngineState) (order : Order)
    (hpos : posQtyPos st) (hq : 0 < order.quantity) :
    posQtyPos (updatePortfolio st order) := by
  intro kv hkv
  rcases hside : order.side with _ | _
  · rcases hget : positionsGet st.positions order.symbol with _ | ex
    · simp only [updatePortfolio, hside, hget, reduceCtorEq, if_true, if_false] at hkv
      rcases mem_positionsSet _ _ _ _ hkv with h' | h'
      · exact hpos _ h'
      · subst h'
        exact hq
    · have hexq : 0 < ex.quantity := hpos _ (positionsGet_mem _ _ _ hget)
      simp only [updatePortfolio, hside, hget, reduceCtorEq, if_true, if_false] at hkv
      rcases mem_positionsSet _ _ _ _ hkv with h' | h'
      · exact hpos _ h'
      · subst h'
        simp only
        positivity
  · rcases hget : positionsGet st.positions order.symbol with _ | ex
    · simp only [updatePortfolio, hside, hget, reduceCtorEq, if_true, if_false] at hkv
      exact hpos _ hkv
    · simp only [updatePortfolio, hside, hget, reduceCtorEq, if_true, if_false] at hkv
      by_cases hrem : ex.quantity - order.quantity ≤ 0
      · simp only [hrem, if_true] at hkv
        exact hpos _ (mem_positionsDelete _ _ _ hkv)
      · simp only [hrem, if_false] at hkv
        rcases mem_positionsSet _ _ _ _ hkv with h' | h'
        · exact hpos _ h'
        · subst h'
          simp only
          linarith

theorem applyMarket_posQtyPos (st : EngineState) (op : MarketOp)
    (hpos : posQtyPos st) (hq : 0 < op.quantity) : posQtyPos (applyMarket st op) := by
  intro kv hkv
  rw [applyMarket_positions] at hkv
  exact updatePortfolio_posQtyPos st (mkMarketOrder op) hpos hq _ hkv

theorem applyMarket_balance (st : EngineState) (op : MarketOp) :
    (applyMarket st op).balance =
      if op.side = Side.buy then st.balance - op.price * op.quantity
      else st.balance + op.price * op.quantity := by
  have hb : (applyMarket st op).balance = (updatePortfolio st (mkMarketOrder op)).balance := by
    rw [applyMarket_eq]
  rcases hside : op.side with _ | _
  · rw [hb, updatePortfolio_buy_balance st _ (by simp [mkMarketOrder, hside])]
    simp [mkMarketOrder, hside]
  · rw [hb, updatePortfolio_sell_balance st _ (by simp [mkMarketOrder, hside])]
    simp [mkMarketOrder, hside]

/-- Single-step conservation: one filled market order moves
`balance + Σ avgPrice × quantity` by exactly the realized profit and loss
of that step (zero for a buy). -/
theorem applyMarket_conservation (st : EngineState) (op : MarketOp)
    (hpos : posQtyPos st) (hq : 0 < op.quantity)
    (hsell : op.side = Side.sell → op.quantity ≤ heldQty st op.symbol) :
    (applyMarket st op).balance + poscost (applyMarket st op).positions =
      st.balance + poscost st.positions +
        (if op.side = Side.sell then
          match positionsGet st.positions op.symbol with
          | some p => (op.price - p.averagePrice) * op.quantity
          | none => op.price * op.quantity
        else 0) := by
  rw [applyMarket_balance, applyMarket_positions]
  rcases hside : op.side with _ | _
  · rw [updatePortfolio_buy_poscost st _ (by simp [mkMarketOrder, hside]) hpos
      (by simpa [mkMarketOrder])]
    simp only [hside, reduceCtorEq, if_false, if_true, mkMarketOrder]
    ring
  · rcases hget : positionsGet st.positions op.symbol with _ | ex
    · have hgm : positionsGet st.positions (mkMarketOrder op).symbol = none := hget
      have hupd : (updatePortfolio st (mkMarketOrder op)).positions = st.positions := by
        simp [updatePortfolio, mkMarketOrder, hside, hgm, hget]
      rw [hupd]
      simp only [hside, reduceCtorEq, if_false, if_true, hget]
      ring
    · have hle : op.quantity ≤ ex.quantity := by
        have := hsell hside
        rwa [heldQty, hget] at this
      rw [updatePortfolio_sell_poscost st _ ex (by simp [mkMarketOrder, hside]) hget
        (by simpa [mkMarketOrder])]
      simp only [hside, reduceCtorEq, if_false, if_true, hget, mkMarketOrder]
      ring

/-! ## Trace-level conservation -/

theorem runOps_conservation (ops : List MarketOp) :
    ∀ st : EngineState, posQtyPos st → sellsOk st ops →
      (runOps st ops).balance + poscost (runOps st ops).positions =
        st.balance + poscost st.positions + realizedOf st ops := by
  induction ops with
  | nil =>
      intro st _ _
      simp [runOps, realizedOf]
  | cons op rest ih =>
      intro st hpos hok
      obtain ⟨hq, hsell, hrest⟩ := hok
      have hpos' : posQtyPos (applyMarket st op) := applyMarket_posQtyPos st op hpos hq
      have hstep := applyMarket_conservation st op hpos hq hsell
      have htail := ih (applyMarket st op) hpos' hrest
      simp only [runOps, List.foldl_cons] at htail ⊢
      rw [htail, realizedOf]
      rw [hstep]
      ring_nf
      rcases hside : op.side with _ | _ <;> simp [hside] <;> ring

theorem runOps_balance (ops : List MarketOp) :
    ∀ st : EngineState,
      (runOps st ops).balance = st.balance - cashOut ops + cashIn ops := by
  induction ops with
  | nil =>
      intro st
      simp [runOps, cashOut, cashIn]
  | cons op rest ih =>
      intro st
      simp only [runOps, List.foldl_cons] at ih ⊢
      rw [ih (applyMarket st op), applyMarket_balance]
      rcases hside : op.side with _ | _ <;>
        simp [cashOut, cashIn, hside] <;> ring

/-! ## Key-uniqueness machinery -/

theorem positionsGet_eq_none_iff (m : List (String × Position)) (k : String) :
    positionsGet m k = none ↔ k ∉ m.map Prod.fst := by
  induction m with
  | nil => simp [positionsGet]
  | cons kv rest ih =>
      by_cases hk : kv.1 = k
      · simp [positionsGet, hk]
      · simp [positionsGet, hk, ih, Ne.symm hk]

theorem keys_positionsSet_mem (m : List (String × Position)) (k : String) (v : Position)
    (h : k ∈ m.map Prod.fst) :
    (positionsSet m k v).map Prod.fst = m.map Prod.fst := by
  induction m with
  | nil => simp at h
  | cons kv rest ih =>
      by_cases hk : kv.1 = k
      · simp [positionsSet, hk]
      · simp only [List.map_cons, List.mem_cons] at h
        rcases h with h | h
        · exact absurd h.symm hk
        · simp [positionsSet, hk, ih h]

theorem keys_positionsSet_notMem (m : List (String × Position)) (k : String) (v : Position)
    (h : k ∉ m.map Prod.fst) :
    (positionsSet m k v).map Prod.fst = m.map Prod.fst ++ [k] := by
  induction m with
  | nil => simp [positionsSet]
  | cons kv rest ih =>
      simp only [List.map_cons, List.mem_cons] at h
      push_neg at h
      have hk : kv.1 ≠ k := fun he => h.1 he.symm
      simp [positionsSet, hk, ih h.2]

theorem nodupKeys_positionsSet (m : List (String × Position)) (k : String) (v : Position)
    (h : (m.map Prod.fst).Nodup) : ((positionsSet m k v).map Prod.fst).Nodup := by
  by_cases hk : k ∈ m.map Prod.fst
  · rw [keys_positionsSet_mem m k v hk]
    exact h
  · rw [keys_positionsSet_notMem m k v hk]
    simp [List.nodup_append, h, hk]

theorem positionsDelete_sublist (m : List (String × Position)) (k : String) :
    List.Sublist (positionsDelete m k) m := by
  induction m with
  | nil => simp [positionsDelete]
  | cons kv rest ih =>
      by_cases hk : kv.1 = k
      · simp only [positionsDelete, if_pos hk]
        exact List.sublist_cons_self kv rest
      · simp only [positionsDelete, if_neg hk]
        exact List.Sublist.cons₂ kv ih

theorem nodupKeys_positionsDelete (m : List (String × Position)) (k : String)
    (h : (m.map Prod.fst).Nodup) : ((positionsDelete m k).map Prod.fst).Nodup :=
  ((positionsDelete_sublist m k).map Prod.fst).nodup h

theorem positionsGet_positionsDelete_self (m : List (String × Position)) (k : String)
    (h : (m.map Prod.fst).Nodup) : positionsGet (positionsDelete m k) k = none := by
  induction m with
  | nil => simp [positionsDelete, positionsGet]
  | cons kv rest ih =>
      simp only [List.map_cons, List.nodup_cons] at h
      by_cases hk : kv.1 = k
      · simp only [positionsDelete, if_pos hk]
        rw [positionsGet_eq_none_iff]
        exact hk ▸ h.1
      · simp only [positionsDelete, if_neg hk, positionsGet, if_neg hk]
        exact ih h.2

/-- The ledger well-formedness invariant: positive quantities and unique
symbols in the position map. -/
def WF (st : EngineState) : Prop :=
  posQtyPos st ∧ (st.positions.map Prod.fst).Nodup

theorem updatePortfolio_nodupKeys (st : EngineState) (order : Order)
    (h : (st.positions.map Prod.fst).Nodup) :
    ((updatePortfolio st order).positions.map Prod.fst).Nodup := by
  rcases hside : order.side with _ | _ <;>
    rcases hget : positionsGet st.positions order.symbol with _ | ex
  · simp only [updatePortfolio, hside, hget, if_true]
    exact nodupKeys_positionsSet _ _ _ h
  · simp only [updatePortfolio, hside, hget, if_true]
    exact nodupKeys_positionsSet _ _ _ h
  · simp only [updatePortfolio, hside, hget, reduceCtorEq, if_false]
    exact h
  · simp only [updatePortfolio, hside, hget, reduceCtorEq, if_false]
    split
    · exact nodupKeys_positionsDelete _ _ h
    · exact nodupKeys_positionsSet _ _ _ h

/-! ## placeOrder characterization -/

/-- A failed quote propagates verbatim and the state — orders, positions
and balance alike — is exactly the input state. -/
theorem placeOrder_error_eq (st : EngineState) (intent : OrderIntent)
    (limitPrice : Option ℚ) (freshId now : String) (e : String) :
    placeOrder st intent limitPrice freshId now (.error e) = (.error e, st) := rfl

/-- The order built by a successful `placeOrder` for a market intent, and
the resulting state: the ledger application followed by the append. -/
theorem placeOrder_market_eq (st : EngineState) (intent : OrderIntent)
    (limitPrice : Option ℚ) (freshId now : String) (pd : PriceData)
    (h : intent.type = OrderType.market) :
    placeOrder st intent limitPrice freshId now (.ok pd) =
      (.ok { id := freshId, symbol := intent.symbol, type := intent.type,
             side := intent.side, quantity := intent.quantity, price := pd.price,
             status := Status.filled, timestamp := now },
       { updatePortfolio st
           { id := freshId, symbol := intent.symbol, type := intent.type,
             side := intent.side, quantity := intent.quantity, price := pd.price,
             status := Status.filled, timestamp := now } with
         orders := (updatePortfolio st
           { id := freshId, symbol := intent.symbol, type := intent.type,
             side := intent.side, quantity := intent.quantity, price := pd.price,
             status := Status.filled, timestamp := now }).orders ++
           [{ id := freshId, symbol := intent.symbol, type := intent.type,
              side := intent.side, quantity := intent.quantity, price := pd.price,
              status := Status.filled, timestamp := now }] }) := by
  simp [placeOrder, h]

/-- The order built by a successful `placeOrder` for a limit intent: status
`pending`, price `limitPrice || quote price`, no ledger application —
the new state only appends the order. -/
theorem placeOrder_limit_eq (st : EngineState) (intent : OrderIntent)
    (limitPrice : Option ℚ) (freshId now : String) (pd : PriceData)
    (h : intent.type = OrderType.limit) :
    placeOrder st intent limitPrice freshId now (.ok pd) =
      (.ok { id := freshId, symbol := intent.symbol, type := intent.type,
             side := intent.side, quantity := intent.quantity,
             price := jsOrElse limitPrice pd.price,
             status := Status.pending, timestamp := now },
       { st with orders := st.orders ++
           [{ id := freshId, symbol := intent.symbol, type := intent.type,
              side := intent.side, quantity := intent.quantity,
              price := jsOrElse limitPrice pd.price,
              status := Status.pending, timestamp := now }] }) := by
  simp [placeOrder, h]

theorem updatePortfolio_orders (st : EngineState) (order : Order) :
    (updatePortfolio st order).orders = st.orders := by
  rcases hside : order.side with _ | _ <;>
    rcases hget : positionsGet st.positions order.symbol with _ | ex <;>
    simp only [updatePortfolio, hside, hget, if_true, reduceCtorEq, if_false]
  split <;> rfl

/-! ## The reachable-state invariant -/

theorem placeOrder_WF (st : EngineState) (intent : OrderIntent) (limitPrice : Option ℚ)
    (freshId now : String) (quoteResult : Except String PriceData)
    (hq : 0 < intent.quantity) (h : WF st) :
    WF (placeOrder st intent limitPrice freshId now quoteResult).2 := by
  rcases quoteResult with e | pd
  · rw [placeOrder_error_eq]
    exact h
  · rcases htype : intent.type with _ | _
    · rw [placeOrder_market_eq st intent limitPrice freshId now pd htype]
      constructor
      · intro kv hkv
        exact updatePortfolio_posQtyPos st _ h.1 hq _ hkv
      · exact updatePortfolio_nodupKeys st _ h.2
    · rw [placeOrder_limit_eq st intent limitPrice freshId now pd htype]
      exact h

theorem reachable_WF (st : EngineState) (h : Reachable st) : WF st := by
  induction h with
  | init =>
      constructor
      · intro kv hkv
        simp [initialState] at hkv
      · simp [initialState]
  | step intent limitPrice freshId now quoteResult hq _ ih =>
      exact placeOrder_WF _ intent limitPrice freshId now quoteResult hq ih

/-! ## Symbol normalization (`MarketDataService.formatSymbol`)

`symbol.trim().toUpperCase()` then, when the result has no `'.'` and is
nonempty, append `".NS"`. `trim` and `toUpperCase` are embedded per
character over `String.data`: `isSpace` is the whitespace test of `trim`,
`upperChar` the ASCII case mapping of `toUpperCase`. -/

def isSpace (c : Char) : Bool :=
  c = ' ' || c = '\t' || c = '\n' || c = '\r'

/-- ASCII uppercasing of one character: `'a'`–`'z'` (code 97–122) shifts
down by 32, everything else is fixed. -/
def upperChar (c : Char) : Char :=
  if 97 ≤ c.toNat ∧ c.toNat ≤ 122 then Char.ofNat (c.toNat - 32) else c

/-- Remove trailing whitespace. -/
def dropTrail (l : List Char) : List Char :=
  (l.reverse.dropWhile isSpace).reverse

/-- `String.prototype.trim`: remove leading and trailing whitespace. -/
def trimChars (l : List Char) : List Char :=
  dropTrail (l.dropWhile isSpace)

/-- `formatSymbol` over the character list:
`let clean = symbol.trim().toUpperCase(); if (!clean.includes('.') && clean.length > 0) return clean + ".NS"; return clean;` -/
def formatSymbolChars (s : List Char) : List Char :=
  let clean := (trimChars s).map upperChar
  if '.' ∉ clean ∧ 0 < clean.length then clean ++ ".NS".data else clean

/-- `MarketDataService.formatSymbol` (identical in the Alpha Vantage and
proxy variants of `marketData.ts`). -/
def formatSymbol (s : String) : String :=
  ⟨formatSymbolChars s.data⟩

theorem upperChar_shift (t : ℕ) (h1 : 97 ≤ t) (h2 : t ≤ 122) :
    upperChar (Char.ofNat (t - 32)) = Char.ofNat (t - 32) := by
  interval_cases t <;> decide

theorem isSpace_shift (t : ℕ) (h1 : 97 ≤ t) (h2 : t ≤ 122) :
    isSpace (Char.ofNat (t - 32)) = false := by
  interval_cases t <;> decide

theorem isSpace_eq_false_of_lower (c : Char) (h : 97 ≤ c.toNat) : isSpace c = false := by
  have h1 : c ≠ ' ' := by
    intro he
    rw [he] at h
    exact absurd h (by decide)
  have h2 : c ≠ '\t' := by
    intro he
    rw [he] at h
    exact absurd h (by decide)
  have h3 : c ≠ '\n' := by
    intro he
    rw [he] at h
    exact absurd h (by decide)
  have h4 : c ≠ '\r' := by
    intro he
    rw [he] at h
    exact absurd h (by decide)
  simp [isSpace, h1, h2, h3, h4]

theorem upperChar_upperChar (c : Char) : upperChar (upperChar c) = upperChar c := by
  by_cases h : 97 ≤ c.toNat ∧ c.toNat ≤ 122
  · have h1 : upperChar c = Char.ofNat (c.toNat - 32) := by rw [upperChar, if_pos h]
    rw [h1]
    exact upperChar_shift c.toNat h.1 h.2
  · have h1 : upperChar c = c := by rw [upperChar, if_neg h]
    rw [h1, h1]

theorem isSpace_upperChar (c : Char) : isSpace (upperChar c) = isSpace c := by
  by_cases h : 97 ≤ c.toNat ∧ c.toNat ≤ 122
  · have h1 : upperChar c = Char.ofNat (c.toNat - 32) := by rw [upperChar, if_pos h]
    rw [h1, isSpace_shift c.toNat h.1 h.2, isSpace_eq_false_of_lower c h.1]
  · have h1 : upperChar c = c := by rw [upperChar, if_neg h]
    rw [h1]

theorem dropWhile_isSpace_idem (l : List Char) :
    (l.dropWhile isSpace).dropWhile isSpace = l.dropWhile isSpace := by
  induction l with
  | nil => rfl
  | cons c l ih =>
      by_cases h : isSpace c = true
      · simp [List.dropWhile_cons, h, ih]
      · simp [List.dropWhile_cons, h]

theorem dropTrail_dropTrail (l : List Char) : dropTrail (dropTrail l) = dropTrail l := by
  simp [dropTrail, List.reverse_reverse, dropWhile_isSpace_idem]

theorem head?_dropWhile_isSpace (l : List Char) (c : Char)
    (h : (l.dropWhile isSpace).head? = some c) : isSpace c = false := by
  induction l with
  | nil => simp [List.dropWhile] at h
  | cons a l ih =>
      by_cases ha : isSpace a = true
      · rw [List.dropWhile_cons, if_pos ha] at h
        exact ih h
      · rw [List.dropWhile_cons, if_neg ha] at h
        simp only [List.head?_cons, Option.some.injEq] at h
        subst h
        simpa using ha

theorem dropTrail_prefix (l : List Char) : List.IsPrefix (dropTrail l) l := by
  obtain ⟨t, ht⟩ := @List.dropWhile_suffix Char l.reverse isSpace
  refine ⟨t.reverse, ?_⟩
  rw [dropTrail, ← List.reverse_append, ht, List.reverse_reverse]

theorem dropWhile_trimChars (l : List Char) :
    (trimChars l).dropWhile isSpace = trimChars l := by
  rcases hd : trimChars l with _ | ⟨c, cs⟩
  · rfl
  · have hpre : List.IsPrefix (trimChars l) (l.dropWhile isSpace) := by
      rw [trimChars]
      exact dropTrail_prefix _
    rw [hd] at hpre
    obtain ⟨t, ht⟩ := hpre
    have hhead : (l.dropWhile isSpace).head? = some c := by
      rw [← ht]
      rfl
    have hc : isSpace c = false := head?_dropWhile_isSpace l c hhead
    rw [List.dropWhile_cons, hc]
    simp

theorem trimChars_trimChars (l : List Char) : trimChars (trimChars l) = trimChars l := by
  conv_lhs => rw [trimChars, dropWhile_trimChars]
  rw [trimChars, dropTrail_dropTrail]

theorem dropTrail_map (f : Char → Char) (hf : ∀ c, isSpace (f c) = isSpace c)
    (l : List Char) : dropTrail (l.map f) = (dropTrail l).map f := by
  have hcomp : (isSpace ∘ f) = isSpace := funext hf
  rw [dropTrail, ← List.map_reverse, List.dropWhile_map, hcomp, dropTrail, List.map_reverse]

theorem trimChars_map (f : Char → Char) (hf : ∀ c, isSpace (f c) = isSpace c)
    (l : List Char) : trimChars (l.map f) = (trimChars l).map f := by
  have hcomp : (isSpace ∘ f) = isSpace := funext hf
  rw [trimChars, List.dropWhile_map, hcomp, dropTrail_map f hf, trimChars]

theorem isSpace_head_false (c : Char) (cs : List Char)
    (h : (c :: cs).dropWhile isSpace = c :: cs) : isSpace c = false := by
  by_cases hc : isSpace c = true
  · rw [List.dropWhile_cons, if_pos hc] at h
    have hlen := (@List.dropWhile_suffix Char cs isSpace).length_le
    rw [h] at hlen
    simp only [List.length_cons] at hlen
    omega
  · simpa using hc

theorem dropWhile_cons_false (c : Char) (l : List Char) (hc : isSpace c = false) :
    (c :: l).dropWhile isSpace = c :: l := by
  rw [List.dropWhile_cons, hc]
  simp

theorem trimChars_append_ns (c : Char) (cs : List Char)
    (hdw : (c :: cs).dropWhile isSpace = c :: cs) :
    trimChars ((c :: cs) ++ ".NS".data) = (c :: cs) ++ ".NS".data := by
  have hc : isSpace c = false := isSpace_head_false c cs hdw
  have h1 : ((c :: cs) ++ ".NS".data).dropWhile isSpace = (c :: cs) ++ ".NS".data := by
    rw [List.cons_append]
    exact dropWhile_cons_false c _ hc
  rw [trimChars, h1, dropTrail]
  have h2 : ((c :: cs) ++ ".NS".data).reverse = 'S' :: ('N' :: '.' :: (c :: cs).reverse) := by
    rw [List.reverse_append]
    rfl
  rw [h2, dropWhile_cons_false _ _ (by decide)]
  rw [← h2, List.reverse_reverse]

/-- Idempotence of the normalization, over character lists. -/
theorem formatSymbolChars_idem (l : List Char) :
    formatSymbolChars (formatSymbolChars l) = formatSymbolChars l := by
  have hmapc : ((trimChars l).map upperChar).map upperChar = (trimChars l).map upperChar := by
    rw [List.map_map]
    have : (upperChar ∘ upperChar) = upperChar := funext upperChar_upperChar
    rw [this]
  have htrimc : trimChars ((trimChars l).map upperChar) = (trimChars l).map upperChar := by
    rw [trimChars_map upperChar isSpace_upperChar, trimChars_trimChars]
  have hdwc : ((trimChars l).map upperChar).dropWhile isSpace = (trimChars l).map upperChar := by
    have hcomp : (isSpace ∘ upperChar) = isSpace := funext isSpace_upperChar
    rw [List.dropWhile_map, hcomp, dropWhile_trimChars]
  by_cases hc : '.' ∉ (trimChars l).map upperChar ∧ 0 < ((trimChars l).map upperChar).length
  · have hres : formatSymbolChars l = (trimChars l).map upperChar ++ ".NS".data := by
      simp only [formatSymbolChars]
      rw [if_pos hc]
    rw [hres]
    rcases hform : (trimChars l).map upperChar with _ | ⟨c, cs⟩
    · rw [hform] at hc
      simp at hc
    rw [hform] at hmapc htrimc hdwc
    have htrim2 : trimChars ((c :: cs) ++ ".NS".data) = (c :: cs) ++ ".NS".data :=
      trimChars_append_ns c cs hdwc
    have hmap2 : ((c :: cs) ++ ".NS".data).map upperChar = (c :: cs) ++ ".NS".data := by
      rw [List.map_append, hmapc]
      rfl
    have hdot : '.' ∈ (c :: cs) ++ ".NS".data := by
      rw [List.mem_append]
      right
      decide
    simp only [formatSymbolChars]
    rw [htrim2, hmap2, if_neg (by simp [hdot])]
  · have hres : formatSymbolChars l = (trimChars l).map upperChar := by
      simp only [formatSymbolChars]
      rw [if_neg hc]
    rw [hres]
    simp only [formatSymbolChars]
    rw [htrimc, hmapc, if_neg hc]

/-! ## Historical data (`MarketDataService.getHistoricalData`, Alpha
Vantage variant)

The response-processing core of the cache-miss path: the fetched JSON is
already parsed, so the input is either a rate-limit `Note`, a response
without the `Time Series (interval)` key, or the entry list of that
object. Every entry is mapped through `parseFloat` — a missing field
parses to `NaN`, modelled by `JNum.nan` — and the mapped list is sorted
ascending by time. No entry is filtered out. -/

/-- A JS number that may be `NaN` (the result of `parseFloat` on a missing
field). -/
inductive JNum where
  | nan
  | num (q : ℚ)
deriving DecidableEq, Repr

/-- `parseFloat(vals[field])` / `parseInt(vals[field])`: a missing field
gives `NaN`, a present numeric field gives its value. -/
def parseNum (x : Option ℚ) : JNum :=
  match x with
  | none => JNum.nan
  | some q => JNum.num q

/-- One record of the upstream `Time Series (interval)` object: the bar
time (already converted to Unix seconds) and the OHLCV fields, `none`
standing for a missing field. -/
structure RawBar where
  time : ℕ
  «open» : Option ℚ
  high : Option ℚ
  low : Option ℚ
  close : Option ℚ
  volume : Option ℚ
deriving DecidableEq, Repr

/-- The `CandleData` shape of `marketData.ts`. -/
structure CandleData where
  time : ℕ
  «open» : JNum
  high : JNum
  low : JNum
  close : JNum
  volume : JNum
deriving DecidableEq, Repr

/-- The per-entry mapping of `getHistoricalData`. -/
def mkCandle (bar : RawBar) : CandleData :=
  { time := bar.time, «open» := parseNum bar.«open», high := parseNum bar.high,
    low := parseNum bar.low, close := parseNum bar.close,
    volume := parseNum bar.volume }

/-- The upstream intraday response after JSON parsing. -/
inductive ChartResp where
  | note
  | noSeries
  | series (entries : List RawBar)
deriving DecidableEq, Repr

/-- `.sort((a, b) => a.time - b.time)`: stable sort ascending by time. -/
def sortCandles (l : List CandleData) : List CandleData :=
  l.mergeSort (fun a b => a.time ≤ b.time)

/-- `MarketDataService.getHistoricalData` (Alpha Vantage variant), cache
miss, with the fetch outcome passed in: a `Note` key throws the rate-limit
error, an absent `Time Series (interval)` key throws
`No chart data found for this symbol`, and otherwise every entry is mapped
into a candle and the list is sorted ascending by time. -/
def getHistoricalData (resp : ChartResp) : Except String (List CandleData) :=
  match resp with
  | .note => .error "API rate limit reached"
  | .noSeries => .error "No chart data found for this symbol"
  | .series entries => .ok (sortCandles (entries.map mkCandle))

theorem sortCandles_length (l : List CandleData) :
    (sortCandles l).length = l.length :=
  List.length_mergeSort l

theorem sortCandles_perm (l : List CandleData) : (sortCandles l).Perm l :=
  List.mergeSort_perm l _

theorem sortCandles_sorted (l : List CandleData) :
    List.Sorted (fun a b => a.time ≤ b.time) (sortCandles l) := by
  have h := @List.sorted_mergeSort CandleData
    (fun (a b : CandleData) => decide (a.time ≤ b.time))
    (fun a b c hab hbc => by
      simp only [decide_eq_true_eq] at hab hbc ⊢
      omega)
    (fun a b => by
      simp only [Bool.or_eq_true, decide_eq_true_eq]
      omega)
    l
  rw [List.Sorted]
  refine h.imp ?_
  intro a b hab
  simpa using hab

/-! ## Claims -/

/-- Claim C1, counterexample: from the seed ledger, a market buy of 10
"RELIANCE" at quote price 2450 does not leave a position with symbol
"RELIANCE.NS": `placeOrder` records the intent's symbol verbatim, so the
single resulting position carries "RELIANCE". -/
theorem c1_counterexample :
    ¬ ∃ p : Position,
        getPositions (placeOrder initialState
            ⟨"RELIANCE", OrderType.market, Side.buy, 10⟩ none "id1" "t1"
            (quoteAt "RELIANCE.NS" 2450)).2 = [p] ∧
          p.symbol = "RELIANCE.NS" := by
  rintro ⟨p, hp, hs⟩
  have hpos : getPositions (placeOrder initialState
      ⟨"RELIANCE", OrderType.market, Side.buy, 10⟩ none "id1" "t1"
      (quoteAt "RELIANCE.NS" 2450)).2 =
      [{ symbol := "RELIANCE", quantity := 10, averagePrice := 2450,
         currentPrice := 2450, pnl := 0, pnlPercent := 0 }] := by
    simp [getPositions, placeOrder, quoteAt, updatePortfolio, initialState,
      positionsGet, positionsSet, jsOrElse]
  rw [hpos] at hp
  simp only [List.cons.injEq, and_true] at hp
  rw [← hp] at hs
  exact absurd hs (by decide)

/-- Claim C1 (amended): the scenario holds with the position symbol
"RELIANCE" — the intent's symbol, recorded verbatim — instead of
"RELIANCE.NS": balance 975,500 and exactly one position of quantity 10 at
average price 2450. -/
theorem c1_amended_scenario :
    getBalance (placeOrder initialState
        ⟨"RELIANCE", OrderType.market, Side.buy, 10⟩ none "id1" "t1"
        (quoteAt "RELIANCE.NS" 2450)).2 = 975500 ∧
    getPositions (placeOrder initialState
        ⟨"RELIANCE", OrderType.market, Side.buy, 10⟩ none "id1" "t1"
        (quoteAt "RELIANCE.NS" 2450)).2 =
      [{ symbol := "RELIANCE", quantity := 10, averagePrice := 2450,
         currentPrice := 2450, pnl := 0, pnlPercent := 0 }] := by
  constructor
  · simp [getBalance, placeOrder, quoteAt, updatePortfolio, initialState,
      positionsGet, positionsSet, jsOrElse]
    norm_num
  · simp [getPositions, placeOrder, quoteAt, updatePortfolio, initialState,
      positionsGet, positionsSet, jsOrElse]

/-- Claim C3: a filled buy on an existing position sums the quantities and
recomputes the average price as the weighted average of the existing
holding cost and the new cost (cost additivity: the new average times the
new quantity is the old cost plus the new cost); in particular 10 @ 100
then 10 @ 200 yields one position of quantity 20 at average price 150. -/
theorem c3_weighted_average :
    (∀ (st : EngineState) (order : Order) (ex : Position),
      order.side = Side.buy →
      positionsGet st.positions order.symbol = some ex →
      positionsGet (updatePortfolio st order).positions order.symbol =
        some { ex with
          quantity := ex.quantity + order.quantity,
          averagePrice := (ex.averagePrice * ex.quantity + order.price * order.quantity) /
            (ex.quantity + order.quantity) } ∧
      (ex.quantity + order.quantity ≠ 0 →
        (ex.averagePrice * ex.quantity + order.price * order.quantity) /
            (ex.quantity + order.quantity) * (ex.quantity + order.quantity) =
          ex.averagePrice * ex.quantity + order.price * order.quantity)) ∧
    getPositions (runOps initialState
      [⟨"TCS", Side.buy, 10, 100⟩, ⟨"TCS", Side.buy, 10, 200⟩]) =
      [{ symbol := "TCS", quantity := 20, averagePrice := 150, currentPrice := 100,
         pnl := 0, pnlPercent := 0 }] := by
  constructor
  · intro st order ex hside hget
    constructor
    · simp only [updatePortfolio, hside, hget, if_true]
      exact positionsGet_set_self _ _ _
    · intro hne
      exact div_mul_cancel₀ _ hne
  · simp [getPositions, runOps, applyMarket, placeOrder, quoteAt, updatePortfolio,
      initialState, positionsGet, positionsSet, positionsDelete, jsOrElse]
    norm_num

/-- Witness for C3 at a concrete input: after buying 10 TCS at 100, a
filled buy of 10 at 200 merges to quantity 20 at the weighted average. -/
theorem c3_weighted_average_witness :
    positionsGet (updatePortfolio (applyMarket initialState ⟨"TCS", Side.buy, 10, 100⟩)
        ⟨"", "TCS", OrderType.market, Side.buy, 10, 200, Status.filled, ""⟩).positions "TCS" =
      some { symbol := "TCS", quantity := 10 + 10,
             averagePrice := (100 * 10 + 200 * 10) / (10 + 10),
             currentPrice := 100, pnl := 0, pnlPercent := 0 } ∧
    ((100 : ℚ) * 10 + 200 * 10) / (10 + 10) * (10 + 10) = 100 * 10 + 200 * 10 := by
  have hget : positionsGet (applyMarket initialState
      ⟨"TCS", Side.buy, 10, 100⟩).positions "TCS" =
      some { symbol := "TCS", quantity := 10, averagePrice := 100, currentPrice := 100,
             pnl := 0, pnlPercent := 0 } := by
    simp [applyMarket, placeOrder, quoteAt, updatePortfolio, initialState,
      positionsGet, positionsSet, jsOrElse]
  have h := c3_weighted_average.1 (applyMarket initialState ⟨"TCS", Side.buy, 10, 100⟩)
    ⟨"", "TCS", OrderType.market, Side.buy, 10, 200, Status.filled, ""⟩
    { symbol := "TCS", quantity := 10, averagePrice := 100, currentPrice := 100,
      pnl := 0, pnlPercent := 0 } rfl hget
  exact ⟨h.1, h.2 (by norm_num)⟩

/-- Claim C4: every ledger state reachable by `placeOrder` calls has only
positive-quantity positions; on a reachable state a filled sell of at
least the held quantity removes the entry from the map; and buying 5 then
selling 5 of a symbol leaves `getPositions()` empty. -/
theorem c4_positive_positions :
    (∀ st : EngineState, Reachable st → ∀ p ∈ getPositions st, 0 < p.quantity) ∧
    (∀ (st : EngineState) (order : Order) (ex : Position), Reachable st →
      order.side = Side.sell →
      positionsGet st.positions order.symbol = some ex →
      ex.quantity ≤ order.quantity →
      positionsGet (updatePortfolio st order).positions order.symbol = none) ∧
    getPositions (runOps initialState
      [⟨"TCS", Side.buy, 5, 100⟩, ⟨"TCS", Side.sell, 5, 100⟩]) = [] := by
  refine ⟨?_, ?_, ?_⟩
  · intro st hr p hp
    obtain ⟨kv, hkv, rfl⟩ := List.mem_map.mp hp
    exact (reachable_WF st hr).1 kv hkv
  · intro st order ex hr hside hget hle
    have hnodup := (reachable_WF st hr).2
    have hrem : ex.quantity - order.quantity ≤ 0 := by linarith
    simp only [updatePortfolio, hside, hget, reduceCtorEq, if_false, hrem, if_true]
    exact positionsGet_positionsDelete_self _ _ hnodup
  · simp [getPositions, runOps, applyMarket, placeOrder, quoteAt, updatePortfolio,
      initialState, positionsGet, positionsSet, positionsDelete, jsOrElse]

/-- Witness for C4 at a concrete input: the state after buying 5 TCS is
reachable, its positions are all positive, and a filled sell of 5 removes
the TCS entry. -/
theorem c4_positive_positions_witness :
    (∀ p ∈ getPositions (applyMarket initialState ⟨"TCS", Side.buy, 5, 100⟩),
      0 < p.quantity) ∧
    positionsGet (updatePortfolio (applyMarket initialState ⟨"TCS", Side.buy, 5, 100⟩)
        ⟨"", "TCS", OrderType.market, Side.sell, 5, 100, Status.filled, ""⟩).positions
      "TCS" = none := by
  have hr : Reachable (applyMarket initialState ⟨"TCS", Side.buy, 5, 100⟩) :=
    Reachable.step ⟨"TCS", OrderType.market, Side.buy, 5⟩ none "" "" (quoteAt "TCS" 100)
      (by norm_num) Reachable.init
  have hget : positionsGet (applyMarket initialState
      ⟨"TCS", Side.buy, 5, 100⟩).positions "TCS" =
      some { symbol := "TCS", quantity := 5, averagePrice := 100, currentPrice := 100,
             pnl := 0, pnlPercent := 0 } := by
    simp [applyMarket, placeOrder, quoteAt, updatePortfolio, initialState,
      positionsGet, positionsSet, jsOrElse]
  exact ⟨c4_positive_positions.1 _ hr,
    c4_positive_positions.2.1 _ _ _ hr rfl hget (by norm_num)⟩

/-- Claim C2, counterexample: the trace buy 10 @ 100 then sell 5 @ 200 of
the same symbol (no oversell: 5 ≤ 10 held) has total cash outflow 1000 and
total inflow 1000, while the final positions carry
Σ avgPrice × quantity = 100 × 5 = 500, so outflow − inflow ≠ Σ — the
claimed aggregate identity fails whenever a sell executes away from the
average price. -/
theorem c2_counterexample :
    sellsOk initialState
      [{ symbol := "RELIANCE", side := Side.buy, quantity := 10, price := 100 },
       { symbol := "RELIANCE", side := Side.sell, quantity := 5, price := 200 }] ∧
    cashOut
        [{ symbol := "RELIANCE", side := Side.buy, quantity := 10, price := 100 },
         { symbol := "RELIANCE", side := Side.sell, quantity := 5, price := 200 }] -
      cashIn
        [{ symbol := "RELIANCE", side := Side.buy, quantity := 10, price := 100 },
         { symbol := "RELIANCE", side := Side.sell, quantity := 5, price := 200 }] ≠
      poscost (runOps initialState
        [{ symbol := "RELIANCE", side := Side.buy, quantity := 10, price := 100 },
         { symbol := "RELIANCE", side := Side.sell, quantity := 5, price := 200 }]).positions := by
  constructor
  · simp [sellsOk, heldQty, applyMarket, placeOrder, quoteAt, updatePortfolio, initialState,
      positionsGet, positionsSet, jsOrElse]
    norm_num
  · have h1 : cashOut
        [{ symbol := "RELIANCE", side := Side.buy, quantity := 10, price := (100 : ℚ) },
         { symbol := "RELIANCE", side := Side.sell, quantity := 5, price := 200 }] -
      cashIn
        [{ symbol := "RELIANCE", side := Side.buy, quantity := 10, price := 100 },
         { symbol := "RELIANCE", side := Side.sell, quantity := 5, price := 200 }] = 0 := by
      simp [cashOut, cashIn]
      norm_num
    have h2 : poscost (runOps initialState
        [{ symbol := "RELIANCE", side := Side.buy, quantity := 10, price := 100 },
         { symbol := "RELIANCE", side := Side.sell, quantity := 5, price := 200 }]).positions
        = 500 := by
      simp [poscost, runOps, applyMarket, placeOrder, quoteAt, updatePortfolio, initialState,
        positionsGet, positionsSet, positionsDelete, jsOrElse]
      norm_num
    rw [h1, h2]
    norm_num

/-- Claim C2 (amended): each single filled market order changes the
balance by exactly minus (buy) or plus (sell) price × quantity; and over
any trace from the seed ledger with positive quantities and no sell
exceeding the held quantity, total cash outflow minus total cash inflow
equals Σ position.avgPrice × position.quantity over the final positions
minus the realized profit and loss of the sells (the claim's identity
without that correction term fails — see the counterexample). -/
theorem c2_ledger_conservation :
    (∀ (st : EngineState) (op : MarketOp),
      (applyMarket st op).balance =
        if op.side = Side.buy then st.balance - op.price * op.quantity
        else st.balance + op.price * op.quantity) ∧
    (∀ ops : List MarketOp, sellsOk initialState ops →
      cashOut ops - cashIn ops =
        poscost (runOps initialState ops).positions - realizedOf initialState ops) := by
  constructor
  · exact applyMarket_balance
  · intro ops hok
    have hpos : posQtyPos initialState := by
      intro kv hkv
      simp [initialState] at hkv
    have h := runOps_conservation ops initialState hpos hok
    have hb := runOps_balance ops initialState
    have h0 : poscost initialState.positions = 0 := rfl
    rw [hb, h0] at h
    linarith

/-- Witness for C2 at a concrete input: the buy 10 @ 100, sell 5 @ 200
trace satisfies the no-oversell precondition and the amended identity
(0 = 500 − 500). -/
theorem c2_ledger_conservation_witness :
    sellsOk initialState
      [{ symbol := "RELIANCE", side := Side.buy, quantity := 10, price := 100 },
       { symbol := "RELIANCE", side := Side.sell, quantity := 5, price := 200 }] ∧
    cashOut
        [{ symbol := "RELIANCE", side := Side.buy, quantity := 10, price := 100 },
         { symbol := "RELIANCE", side := Side.sell, quantity := 5, price := 200 }] -
      cashIn
        [{ symbol := "RELIANCE", side := Side.buy, quantity := 10, price := 100 },
         { symbol := "RELIANCE", side := Side.sell, quantity := 5, price := 200 }] =
      poscost (runOps initialState
        [{ symbol := "RELIANCE", side := Side.buy, quantity := 10, price := 100 },
         { symbol := "RELIANCE", side := Side.sell, quantity := 5, price := 200 }]).positions -
      realizedOf initialState
        [{ symbol := "RELIANCE", side := Side.buy, quantity := 10, price := 100 },
         { symbol := "RELIANCE", side := Side.sell, quantity := 5, price := 200 }] := by
  have hok : sellsOk initialState
      [{ symbol := "RELIANCE", side := Side.buy, quantity := 10, price := 100 },
       { symbol := "RELIANCE", side := Side.sell, quantity := 5, price := 200 }] := by
    simp [sellsOk, heldQty, applyMarket, placeOrder, quoteAt, updatePortfolio, initialState,
      positionsGet, positionsSet, jsOrElse]
    norm_num
  exact ⟨hok, c2_ledger_conservation.2 _ hok⟩

/-- Claim C5: for every limit-order intent with a successful quote,
`placeOrder` returns an order with status `pending`, appends it to the
history, and leaves the balance and the whole position map unchanged —
only filled orders reach the ledger application. -/
theorem c5_limit_pending_frame :
    ∀ (st : EngineState) (intent : OrderIntent) (limitPrice : Option ℚ)
      (freshId now : String) (pd : PriceData),
      intent.type = OrderType.limit →
      ∃ o : Order,
        (placeOrder st intent limitPrice freshId now (.ok pd)).1 = .ok o ∧
        o.status = Status.pending ∧
        (placeOrder st intent limitPrice freshId now (.ok pd)).2.orders = st.orders ++ [o] ∧
        (placeOrder st intent limitPrice freshId now (.ok pd)).2.balance = st.balance ∧
        (placeOrder st intent limitPrice freshId now (.ok pd)).2.positions = st.positions := by
  intro st intent limitPrice freshId now pd h
  rw [placeOrder_limit_eq st intent limitPrice freshId now pd h]
  exact ⟨_, rfl, rfl, rfl, rfl, rfl⟩

/-- Witness for C5 at a concrete input: a limit buy of 5 at limit price 99
from the seed ledger. -/
theorem c5_limit_pending_frame_witness :
    ∃ o : Order,
      (placeOrder initialState ⟨"TCS", OrderType.limit, Side.buy, 5⟩ (some 99) "id" "t"
          (quoteAt "TCS.NS" 100)).1 = .ok o ∧
      o.status = Status.pending ∧
      (placeOrder initialState ⟨"TCS", OrderType.limit, Side.buy, 5⟩ (some 99) "id" "t"
          (quoteAt "TCS.NS" 100)).2.orders = initialState.orders ++ [o] ∧
      (placeOrder initialState ⟨"TCS", OrderType.limit, Side.buy, 5⟩ (some 99) "id" "t"
          (quoteAt "TCS.NS" 100)).2.balance = initialState.balance ∧
      (placeOrder initialState ⟨"TCS", OrderType.limit, Side.buy, 5⟩ (some 99) "id" "t"
          (quoteAt "TCS.NS" 100)).2.positions = initialState.positions :=
  c5_limit_pending_frame initialState ⟨"TCS", OrderType.limit, Side.buy, 5⟩ (some 99)
    "id" "t" { symbol := "TCS.NS", price := 100, change := 0, changePercent := 0,
               lastUpdated := "" } rfl

/-- Claim C6: when the quote resolution fails, `placeOrder` fails with the
same underlying error and the ledger is untouched: no order is appended
and balance and positions keep their prior values. -/
theorem c6_quote_failure_propagates :
    ∀ (st : EngineState) (intent : OrderIntent) (limitPrice : Option ℚ)
      (freshId now : String) (e : String),
      (placeOrder st intent limitPrice freshId now (.error e)).1 = .error e ∧
      (placeOrder st intent limitPrice freshId now (.error e)).2.orders = st.orders ∧
      (placeOrder st intent limitPrice freshId now (.error e)).2.balance = st.balance ∧
      (placeOrder st intent limitPrice freshId now (.error e)).2.positions = st.positions :=
  fun _ _ _ _ _ _ => ⟨rfl, rfl, rfl, rfl⟩

/-- Claim C7: symbol normalization is idempotent for every string, and the
cited examples: "reliance" normalizes to "RELIANCE.NS" and "RELIANCE.BO"
is already normalized. -/
theorem c7_formatSymbol_idempotent :
    (∀ s : String, formatSymbol (formatSymbol s) = formatSymbol s) ∧
    formatSymbol "reliance" = "RELIANCE.NS" ∧
    formatSymbol "RELIANCE.BO" = "RELIANCE.BO" := by
  refine ⟨?_, by decide, by decide⟩
  intro s
  show (⟨formatSymbolChars (formatSymbolChars s.data)⟩ : String) = ⟨formatSymbolChars s.data⟩
  rw [formatSymbolChars_idem]

/-- Claim C8, counterexample: one upstream record missing every OHLC field
is not dropped — it is mapped to a candle of NaNs and returned as a
successful one-element result, not a NoChartData failure; likewise an
empty time-series object yields a successful empty result. -/
theorem c8_counterexample :
    getHistoricalData (ChartResp.series [⟨0, none, none, none, none, none⟩]) =
      .ok [⟨0, JNum.nan, JNum.nan, JNum.nan, JNum.nan, JNum.nan⟩] ∧
    getHistoricalData (ChartResp.series [⟨0, none, none, none, none, none⟩]) ≠
      .error "No chart data found for this symbol" ∧
    getHistoricalData (ChartResp.series []) = .ok [] := by
  refine ⟨?_, ?_, ?_⟩
  · simp [getHistoricalData, sortCandles, mkCandle, parseNum]
  · intro h
    simp [getHistoricalData, sortCandles] at h
  · simp [getHistoricalData, sortCandles]

/-- Claim C8 (amended): `getHistoricalData` does not filter candle
records: every record of the time-series object is mapped into a candle
(missing OHLC fields parse to NaN) and kept, the result is sorted
ascending by time, and the NoChartData error is raised only when the
time-series key itself is absent — never for an empty or all-NaN record
list, which succeeds. -/
theorem c8_history_no_filter :
    (∀ entries : List RawBar,
      getHistoricalData (ChartResp.series entries) =
        .ok (sortCandles (entries.map mkCandle)) ∧
      (sortCandles (entries.map mkCandle)).length = entries.length ∧
      List.Sorted (fun a b => a.time ≤ b.time) (sortCandles (entries.map mkCandle)) ∧
      (sortCandles (entries.map mkCandle)).Perm (entries.map mkCandle)) ∧
    getHistoricalData ChartResp.noSeries =
      .error "No chart data found for this symbol" := by
  refine ⟨?_, rfl⟩
  intro entries
  refine ⟨rfl, ?_, sortCandles_sorted _, sortCandles_perm _⟩
  rw [sortCandles_length, List.length_map]

/-- Claim C9: a limit intent placed with a caller-supplied limit price of
0 records the quote's current price, because the JS fallback
`limitPrice || quote.price` treats 0 as falsy. -/
theorem c9_zero_limit_price :
    ∀ (st : EngineState) (intent : OrderIntent) (freshId now : String) (pd : PriceData),
      intent.type = OrderType.limit →
      ∃ o : Order,
        (placeOrder st intent (some 0) freshId now (.ok pd)).1 = .ok o ∧
        o.price = pd.price := by
  intro st intent freshId now pd h
  rw [placeOrder_limit_eq st intent (some 0) freshId now pd h]
  refine ⟨_, rfl, ?_⟩
  simp [jsOrElse]

/-- Witness for C9 at a concrete input: a limit sell of 3 with limit price
0 against a quote at 250 is recorded at price 250. -/
theorem c9_zero_limit_price_witness :
    ∃ o : Order,
      (placeOrder initialState ⟨"INFY", OrderType.limit, Side.sell, 3⟩ (some 0) "id" "t"
          (quoteAt "INFY.NS" 250)).1 = .ok o ∧
      o.price = (250 : ℚ) :=
  c9_zero_limit_price initialState ⟨"INFY", OrderType.limit, Side.sell, 3⟩ "id" "t"
    { symbol := "INFY.NS", price := 250, change := 0, changePercent := 0,
      lastUpdated := "" } rfl

/-- Claim C10: a filled buy merging into an existing position copies
currentPrice, pnl and pnlPercent from the prior position unchanged, while
the first buy of a symbol sets currentPrice to the execution price and
both P&L fields to 0. -/
theorem c10_buy_pnl_frame :
    (∀ (st : EngineState) (order : Order) (ex : Position),
      order.side = Side.buy →
      positionsGet st.positions order.symbol = some ex →
      ∃ p : Position,
        positionsGet (updatePortfolio st order).positions order.symbol = some p ∧
        p.currentPrice = ex.currentPrice ∧ p.pnl = ex.pnl ∧
        p.pnlPercent = ex.pnlPercent) ∧
    (∀ (st : EngineState) (order : Order),
      order.side = Side.buy →
      positionsGet st.positions order.symbol = none →
      ∃ p : Position,
        positionsGet (updatePortfolio st order).positions order.symbol = some p ∧
        p.currentPrice = order.price ∧ p.pnl = 0 ∧ p.pnlPercent = 0) := by
  constructor
  · intro st order ex hside hget
    refine ⟨{ ex with
              quantity := ex.quantity + order.quantity,
              averagePrice := (ex.averagePrice * ex.quantity +
                order.price * order.quantity) / (ex.quantity + order.quantity) },
      ?_, rfl, rfl, rfl⟩
    simp only [updatePortfolio, hside, hget, if_true]
    exact positionsGet_set_self _ _ _
  · intro st order hside hget
    refine ⟨{ symbol := order.symbol, quantity := order.quantity,
              averagePrice := order.price, currentPrice := order.price,
              pnl := 0, pnlPercent := 0 }, ?_, rfl, rfl, rfl⟩
    simp only [updatePortfolio, hside, hget, if_true]
    exact positionsGet_set_self _ _ _

/-- Witness for C10 at concrete inputs: after buying 10 TCS at 100
(position currentPrice 100, pnl 0), a second buy at 200 keeps
currentPrice 100 and both P&L fields 0; and a first buy of INFY at 250
sets currentPrice 250 and zero P&L. -/
theorem c10_buy_pnl_frame_witness :
    (∃ p : Position,
      positionsGet (updatePortfolio (applyMarket initialState ⟨"TCS", Side.buy, 10, 100⟩)
          ⟨"", "TCS", OrderType.market, Side.buy, 10, 200, Status.filled, ""⟩).positions
        "TCS" = some p ∧
      p.currentPrice = (100 : ℚ) ∧ p.pnl = 0 ∧ p.pnlPercent = 0) ∧
    (∃ p : Position,
      positionsGet (updatePortfolio initialState
          ⟨"", "INFY", OrderType.market, Side.buy, 4, 250, Status.filled, ""⟩).positions
        "INFY" = some p ∧
      p.currentPrice = (250 : ℚ) ∧ p.pnl = 0 ∧ p.pnlPercent = 0) := by
  constructor
  · have hget : positionsGet (applyMarket initialState
        ⟨"TCS", Side.buy, 10, 100⟩).positions "TCS" =
        some { symbol := "TCS", quantity := 10, averagePrice := 100, currentPrice := 100,
               pnl := 0, pnlPercent := 0 } := by
      simp [applyMarket, placeOrder, quoteAt, updatePortfolio, initialState,
        positionsGet, positionsSet, jsOrElse]
    exact c10_buy_pnl_frame.1 (applyMarket initialState ⟨"TCS", Side.buy, 10, 100⟩)
      ⟨"", "TCS", OrderType.market, Side.buy, 10, 200, Status.filled, ""⟩
      { symbol := "TCS", quantity := 10, averagePrice := 100, currentPrice := 100,
        pnl := 0, pnlPercent := 0 } rfl hget
  · exact c10_buy_pnl_frame.2 initialState
      ⟨"", "INFY", OrderType.market, Side.buy, 4, 250, Status.filled, ""⟩ rfl rfl

end PaperTrade
